import Mathlib

/-!
Verification of the CODEOWNERS ownership-resolution engine of the
`dev-tools` repository (files `dev_tools/ownership_utils.py` and
`dev_tools/check_ownership.py`).

Python strings are modelled as `List Char`, repository-relative
`pathlib.Path` values as lists of path segments (`List (List Char)`),
and the `re`-based wildcard matching as an explicit backtracking
matcher over the shape of regexes the code builds: alternating literal
chunks and greedy `(.*)` capture groups, optionally preceded by the
lazy unanchored prefix `.*?`.  Inside a literal chunk the regex
metacharacter `.` matches any character except newline, as in Python
`re` without `DOTALL`; every other chunk character matches itself,
which is faithful for CODEOWNERS patterns whose regex-significant
characters are `*` and `.` (the remaining `re` metacharacters do not
occur in CODEOWNERS path patterns).  Filesystem reads, `Path.resolve`
and `Path.glob` are modelled as explicit oracles passed to the
functions that use them.
-/

/-- A Python string: a list of characters. -/
abbrev Str := List Char

/-- Split a list on a separator character, keeping empty chunks
(the behaviour of Python's `str.split(sep)`). -/
def splitOnChar (c : Char) : Str → List Str
  | [] => [[]]
  | x :: xs =>
    match splitOnChar c xs with
    | [] => [[]]
    | h :: t => if x = c then [] :: h :: t else (x :: h) :: t

/-- Join path segments with `/` (Python's `"/".join`). -/
def intercalateSlash : List Str → Str
  | [] => []
  | [s] => s
  | s :: rest => s ++ '/' :: intercalateSlash rest

/-- The string form `str(path)` of a repository-relative `pathlib.Path`
given by its segments; the empty path prints as `"."`. -/
def pathStr (p : List Str) : Str :=
  if p = [] then ['.'] else intercalateSlash p

/-- Python `Path.name`: the final path segment (empty for the empty path). -/
def pathName (p : List Str) : Str :=
  (p.getLast?).getD []

/-- Python `str.rstrip("/")`: remove all trailing `/` characters. -/
def rstripSlashes (s : Str) : Str :=
  (s.reverse.dropWhile (fun c => c = '/')).reverse

/-- Segments of a relative path string as normalised by `pathlib`
(empty components and `.` components are dropped). -/
def splitSegs (s : Str) : List Str :=
  (splitOnChar '/' s).filter (fun seg => seg ≠ [] ∧ seg ≠ ['.'])

/-- Python `Path(s).parts`: for an absolute string the leading `/` is its
own first part, then the normalised segments. -/
def pathParts (s : Str) : List Str :=
  if s.head? = some '/' then ['/'] :: splitSegs s else splitSegs s

/-- Python `Path.parents`: the proper prefixes of the segment list, from the
immediate parent down to the empty path (`Path(".")`). -/
def parentsOf : List Str → List (List Str)
  | [] => []
  | x :: xs => (parentsOf xs).map (fun q => x :: q) ++ [[]]

/-- Python's substring test `needle in haystack` on strings. -/
def containsSubstring (haystack needle : Str) : Bool :=
  needle.isPrefixOf haystack ||
    match haystack with
    | [] => false
    | _ :: t => containsSubstring t needle

/-- Python set equality `set(a) == set(b)` of two owner lists. -/
def setEq (a b : List Str) : Bool :=
  a.all (fun x => decide (x ∈ b)) && b.all (fun x => decide (x ∈ a))

/-! ### The wildcard matcher

`GithubOwnerShip._match_pattern_with_asterisks` builds the regex
`pattern.replace("*", "(.*)")`, drops the leading `/` when the pattern is
absolute and otherwise prefixes the lazy `.*?`, and runs `re.match`.
The regex is an alternation of literal chunks and greedy `(.*)` groups;
`re.match` anchors at the start only.  `tryAt`/`tryLen` implement one
greedy group followed by a literal chunk, backtracking from the longest
capture; `lazyFind` implements the lazy unanchored prefix.  A chunk is
matched character by character with `re`'s `.` metacharacter semantics:
`.` matches any character except newline. -/

/-- One regex chunk character: `.` matches any character except newline
(Python `re` without `DOTALL`); every other character matches itself. -/
def reCharMatch (pc c : Char) : Bool :=
  if pc = '.' then c != '\n' else pc == c

/-- Whether a regex literal chunk matches a prefix of the input, with
`reCharMatch` deciding each character. -/
def reLitPrefix : Str → Str → Bool
  | [], _ => true
  | _ :: _, [] => false
  | pc :: ps, c :: cs => reCharMatch pc c && reLitPrefix ps cs

/-- Try one capture of exactly `k` characters for a `(.*)` group followed by
the literal chunk `l`, continuing with `cont` on the rest. -/
def tryAt (l : Str) (cont : Str → Option (List Str)) (s : Str) (k : Nat) :
    Option (List Str) :=
  if reLitPrefix l (s.drop k) then
    (cont (s.drop (k + l.length))).map (fun caps => s.take k :: caps)
  else none

/-- Greedy matching of one `(.*)` group followed by the literal chunk `l`:
capture lengths are tried from `k` downwards. -/
def tryLen (l : Str) (cont : Str → Option (List Str)) (s : Str) :
    Nat → Option (List Str)
  | 0 => tryAt l cont s 0
  | k + 1 =>
    match tryAt l cont s (k + 1) with
    | some r => some r
    | none => tryLen l cont s k

/-- Match the regex fragment `(.*)l₁(.*)l₂…` given the list of literal
chunks, returning the list of group captures; trailing input may remain
unconsumed (as with `re.match`). -/
def matchGroups : List Str → Str → Option (List Str)
  | [], _ => some []
  | l :: ls, s => tryLen l (matchGroups ls) s s.length

/-- Anchored match of chunk `c0` then alternating groups and chunks `rest`. -/
def anchoredMatch (c0 : Str) (rest : List Str) (s : Str) : Option (List Str) :=
  if reLitPrefix c0 s then matchGroups rest (s.drop c0.length) else none

/-- The lazy unanchored prefix `.*?`: try the anchored matcher at each start
position from the left. -/
def lazyFind (f : Str → Option (List Str)) : Str → Option (List Str)
  | [] => f []
  | c :: t =>
    match f (c :: t) with
    | some r => some r
    | none => lazyFind f t

/-- Model of `re.match` for the regexes built by
`_match_pattern_with_asterisks`: the pattern is split at `*` into literal
chunks with a greedy `(.*)` group between consecutive chunks; an absolute
pattern drops its leading `/` and matches anchored, otherwise the lazy
`.*?` prefix allows an arbitrary start position.  Returns the captures. -/
def reMatchCaptures (pat s : Str) : Option (List Str) :=
  match splitOnChar '*' pat with
  | [] => none
  | c0 :: rest =>
    if pat.head? = some '/' then anchoredMatch (c0.drop 1) rest s
    else lazyFind (fun t => anchoredMatch c0 rest t) s

/-- `GithubOwnerShip._match_pattern_with_asterisks`: run the translated
regex; for a pattern ending in `/*` additionally require that the last
group's capture equals the file name. -/
def match_pattern_with_asterisks (filepath_string filename pat : Str) : Bool :=
  match reMatchCaptures pat filepath_string with
  | none => false
  | some caps =>
    if ['/', '*'].isSuffixOf pat then decide (caps.getLast? = some filename)
    else true

/-- `GithubOwnerShip.is_file_covered_by_pattern`.  The file path is the
repository-relative path as a segment list. -/
def is_file_covered_by_pattern (filepath_in_repo : List Str) (pat : Str) :
    Bool :=
  let filepath_string := pathStr filepath_in_repo
  if '*' ∈ pat then
    match_pattern_with_asterisks filepath_string (pathName filepath_in_repo) pat
  else if pat.head? = some '/' then
    let path_from_pattern := pathParts (rstripSlashes (pat.drop 1))
    decide (path_from_pattern = filepath_in_repo ∨
      path_from_pattern ∈ parentsOf filepath_in_repo)
  else
    containsSubstring filepath_string (rstripSlashes pat)

/-! ### The ownership index (`ownership_utils.py`) -/

/-- `OwnerShipEntry`: a parsed CODEOWNERS rule. -/
structure OwnerShipEntry where
  pattern : Str
  owners : List Str
  line_number : Nat
deriving DecidableEq, Repr

/-- Python `str.strip()`: remove leading and trailing whitespace. -/
def pyStrip (s : Str) : Str :=
  ((s.dropWhile Char.isWhitespace).reverse.dropWhile Char.isWhitespace).reverse

/-- Split a list at every character satisfying `p`, keeping empty chunks. -/
def splitOnPred (p : Char → Bool) : Str → List Str
  | [] => [[]]
  | x :: xs =>
    match splitOnPred p xs with
    | [] => [[]]
    | h :: t => if p x then [] :: h :: t else (x :: h) :: t

/-- Tokenisation `re.findall(r"(\S+)", line)`: the maximal runs of
non-whitespace characters. -/
def splitWs (s : Str) : List Str :=
  (splitOnPred Char.isWhitespace s).filter (fun t => t ≠ [])

/-- `get_ownership_entries` starting from a given 1-based line number:
skip comment lines (first non-blank character `#`) and blank lines; the
first token of a line is the pattern, the rest are the owners. -/
def get_ownership_entries_from (line_number : Nat) : List Str → List OwnerShipEntry
  | [] => []
  | line :: rest =>
    let current_line := pyStrip line
    let tail := get_ownership_entries_from (line_number + 1) rest
    if current_line.head? = some '#' then tail
    else
      match splitWs current_line with
      | [] => tail
      | pat :: owners => ⟨pat, owners, line_number⟩ :: tail

/-- `get_ownership_entries`: entries of the CODEOWNERS lines, in file
order, with 1-based line numbers. -/
def get_ownership_entries (lines : List Str) : List OwnerShipEntry :=
  get_ownership_entries_from 1 lines

/-- `parse_ownership`: the entries in reverse file order, so that a linear
scan realises last-match-wins. -/
def parse_ownership (lines : List Str) : List OwnerShipEntry :=
  (get_ownership_entries lines).reverse

/-- `GithubOwnerShip.get_owners` restricted to the repository-relative
path: scan the stored (reversed) rules and return the owners of the first
rule whose pattern covers the path, or the empty list. -/
def get_owners (ownerships : List OwnerShipEntry) (file : List Str) : List Str :=
  match ownerships with
  | [] => []
  | o :: rest =>
    if is_file_covered_by_pattern file o.pattern then o.owners
    else get_owners rest file

/-! ### Paths, `resolve_file_in_dir` and the ownership queries

A `pathlib` path is modelled by its absoluteness flag and its segments
(for an absolute path, the segments after the root `/`).  `Path.resolve`
depends on the filesystem (symlinks, the working directory) and is passed
as an oracle. -/

/-- A `pathlib.Path`: absoluteness flag plus segments. -/
structure PyPath where
  absolute : Bool
  parts : List Str
deriving DecidableEq, Repr

/-- Python `Path.relative_to`: succeeds exactly when the root is a
lexical prefix, returning the relative remainder; otherwise `ValueError`
(modelled as `none`). -/
def relativeTo (subpath root : PyPath) : Option PyPath :=
  if subpath.absolute = root.absolute ∧ root.parts <+: subpath.parts then
    some ⟨false, subpath.parts.drop root.parts.length⟩
  else none

/-- `is_relative_to` of `ownership_utils.py`: `relative_to` succeeds. -/
def is_relative_to (subpath root : PyPath) : Bool :=
  (relativeTo subpath root).isSome

/-- Python `dir / file`: an absolute right operand replaces the left. -/
def joinPath (dir file : PyPath) : PyPath :=
  if file.absolute then file else ⟨dir.absolute, dir.parts ++ file.parts⟩

/-- Errors `GithubOwnerShip.__init__` can raise: `NotInDirectoryError`
from `resolve_file_in_dir`, and the `FileNotFoundError` that
`Path.open` raises for a missing file. -/
inductive InitError where
  | notInDirectory
  | fileNotFound
deriving DecidableEq, Repr

/-- `resolve_file_in_dir`: an absolute `file` must resolve inside the
resolved `dir`, else `NotInDirectoryError`; a relative `file` is resolved
relative to `dir`.  `resolve` is the filesystem's `Path.resolve`. -/
def resolve_file_in_dir (resolve : PyPath → PyPath) (dir file : PyPath) :
    Except InitError PyPath :=
  if file.absolute then
    let resolved_file := resolve file
    if is_relative_to resolved_file (resolve dir) = false then
      .error .notInDirectory
    else .ok resolved_file
  else .ok (resolve (joinPath dir file))

/-- `GithubOwnerShip.__init__`: locate the CODEOWNERS file via
`resolve_file_in_dir`, then read and parse it; a missing file is a
`FileNotFoundError` from `open`.  `readLines` is the filesystem's file
reader (`none` when the file cannot be found). -/
def githubOwnerShipInit (resolve : PyPath → PyPath)
    (readLines : PyPath → Option (List Str)) (repo_dir codeowners_file : PyPath) :
    Except InitError (List OwnerShipEntry) :=
  match resolve_file_in_dir resolve repo_dir codeowners_file with
  | .error e => .error e
  | .ok p =>
    match readLines p with
    | none => .error .fileNotFound
    | some lines => .ok (parse_ownership lines)

/-- The `ValueError` that `Path.relative_to` raises inside the queries. -/
inductive QueryError where
  | valueError
deriving DecidableEq, Repr

/-- `GithubOwnerShip.get_owners` on a full path: each loop iteration
evaluates `file.relative_to(self._repo_dir)` (raising `ValueError` when
the file is not under the repository root) before testing the pattern;
with no rules the loop body never runs. -/
def get_owners_q (repo_dir : PyPath) (ownerships : List OwnerShipEntry)
    (file : PyPath) : Except QueryError (List Str) :=
  match ownerships with
  | [] => .ok []
  | o :: rest =>
    match relativeTo file repo_dir with
    | none => .error .valueError
    | some rel =>
      if is_file_covered_by_pattern rel.parts o.pattern then .ok o.owners
      else get_owners_q repo_dir rest file

/-- `GithubOwnerShip.get_first_owner`: first owner, or `None`. -/
def get_first_owner_q (repo_dir : PyPath) (ownerships : List OwnerShipEntry)
    (file : PyPath) : Except QueryError (Option Str) :=
  (get_owners_q repo_dir ownerships file).map List.head?

/-- `GithubOwnerShip.is_owned_by`: membership in `get_owners`. -/
def is_owned_by_q (repo_dir : PyPath) (ownerships : List OwnerShipEntry)
    (file : PyPath) (codeowner : Str) : Except QueryError Bool :=
  (get_owners_q repo_dir ownerships file).map (fun l => decide (codeowner ∈ l))

/-! ### The auditor (`check_ownership.py`)

The printed error reports are modelled as a list of `Violation` values;
the `ReturnCode` bitmask is the set of kinds occurring in the list. -/

/-- One reported violation, with the data the printed message cites. -/
inductive Violation where
  | folder_doesnt_exist (pat : Str)
  | duplicate_lines (pat : Str) (first_line : Option Nat) (line : Nat)
  | multiple_folder_owners (pat : Str) (first_line : Option Nat) (line : Nat)
  | rule_is_ineffective (path : List Str) (line ancestor_line : Option Nat)
deriving DecidableEq, Repr

mutual
/-- `OwnerShipTreeNode`: a node of the path-segment tree.  `children` is
the insertion-ordered dictionary from child names to nodes (Python
`dict`); `owners` holds the owner set of the rule terminating here
(compared via `setEq`). -/
inductive OwnerShipTreeNode where
  | mk (children : ChildList) (owners : List Str) (line_number : Option Nat)

/-- The children dictionary of a tree node: an insertion-ordered list of
name/node bindings. -/
inductive ChildList where
  | nil
  | cons (name : Str) (child : OwnerShipTreeNode) (rest : ChildList)
end

/-- The children of a tree node. -/
def OwnerShipTreeNode.children : OwnerShipTreeNode → ChildList
  | .mk cs _ _ => cs

/-- The owner set stored at a tree node. -/
def OwnerShipTreeNode.owners : OwnerShipTreeNode → List Str
  | .mk _ ow _ => ow

/-- The source line stored at a tree node. -/
def OwnerShipTreeNode.line_number : OwnerShipTreeNode → Option Nat
  | .mk _ _ ln => ln

/-- A fresh `OwnerShipTreeNode()`. -/
def emptyNode : OwnerShipTreeNode := .mk .nil [] none

/-- `add_or_return_child` combined with the update the caller performs on
the returned child: apply `f` to the child named `name`, creating a fresh
node at the end of the dictionary when absent (Python dict insertion
order). -/
def updateChild (f : OwnerShipTreeNode → OwnerShipTreeNode × List Violation)
    (name : Str) : ChildList → ChildList × List Violation
  | .nil =>
    let r := f emptyNode
    (.cons name r.1 .nil, r.2)
  | .cons k v cs =>
    if k = name then
      let r := f v
      (.cons k r.1 cs, r.2)
    else
      let r := updateChild f name cs
      (.cons k v r.1, r.2)

/-- `_populate_tree`: walk/create the child for each path part; at the
terminal node report a duplicate-lines or multiple-folder-owners
violation when owners are already present, then overwrite the node's
owners and line number with the entry's. -/
def populate (entry : OwnerShipEntry) : List Str → OwnerShipTreeNode →
    OwnerShipTreeNode × List Violation
  | [], node =>
    let previous_owners := node.owners
    let reports :=
      if previous_owners ≠ [] then
        if setEq previous_owners entry.owners then
          [.duplicate_lines entry.pattern node.line_number entry.line_number]
        else
          [.multiple_folder_owners entry.pattern node.line_number entry.line_number]
      else []
    (.mk node.children entry.owners (some entry.line_number), reports)
  | name :: rest, node =>
    let r := updateChild (populate entry rest) name node.children
    (.mk r.1 node.owners node.line_number, r.2)

mutual
/-- `_find_ineffective_rules`: report a rule-is-ineffective violation when
the node's owner set equals the context ancestor's and stop there;
otherwise a node with owners becomes the ancestor for its children. -/
def find_ineffective_rules (t : OwnerShipTreeNode)
    (first_ancestor : Option OwnerShipTreeNode) (current_path : List Str) :
    List Violation :=
  match t with
  | .mk cs ow ln =>
    if (match first_ancestor with
        | some a => setEq ow a.owners
        | none => false) then
      [.rule_is_ineffective current_path ln
        ((first_ancestor.map OwnerShipTreeNode.line_number).join)]
    else
      let anc := if ow ≠ [] then some (OwnerShipTreeNode.mk cs ow ln)
                 else first_ancestor
      findIneffChildren cs anc current_path

/-- The loop over `tree_node.children.items()` of
`_find_ineffective_rules`. -/
def findIneffChildren (cs : ChildList)
    (first_ancestor : Option OwnerShipTreeNode) (current_path : List Str) :
    List Violation :=
  match cs with
  | .nil => []
  | .cons child_name child_node rest =>
    find_ineffective_rules child_node first_ancestor (current_path ++ [child_name]) ++
      findIneffChildren rest first_ancestor current_path
end

/-- The entry loop of `check_if_codeowners_has_ineffective_rules`: insert
every entry (in file order) at `Path(entry.pattern).parts`. -/
def buildTree : List OwnerShipEntry → OwnerShipTreeNode →
    OwnerShipTreeNode × List Violation
  | [], node => (node, [])
  | entry :: rest, node =>
    let r := populate entry (pathParts entry.pattern) node
    let r2 := buildTree rest r.1
    (r2.1, r.2 ++ r2.2)

/-- `check_if_codeowners_has_ineffective_rules`: build the tree from all
entries in file order, then walk it for ineffective rules. -/
def check_if_codeowners_has_ineffective_rules (all_entries : List OwnerShipEntry) :
    List Violation :=
  let r := buildTree all_entries emptyNode
  r.2 ++ find_ineffective_rules r.1 none []

/-- The filesystem as seen by `check_if_all_codeowners_folders_exist`:
whether `repo_dir / s` exists, and whether `repo_dir.glob(s)` has at
least one match. -/
structure FileSystem where
  pathExists : Str → Bool
  globHasMatch : Str → Bool

/-- `check_if_all_codeowners_folders_exist`: strip the leading `/` from an
absolute pattern, otherwise prefix `str(Path("**") / pattern)`; then a
subfolder containing `*` must have a glob match and any other subfolder
must exist.  Failures are reported, never raised. -/
def check_if_all_codeowners_folders_exist (fs : FileSystem) :
    List OwnerShipEntry → List Violation
  | [] => []
  | entry :: rest =>
    let subfolder :=
      if entry.pattern.head? = some '/' then entry.pattern.drop 1
      else intercalateSlash (['*', '*'] :: splitSegs entry.pattern)
    let reports :=
      if '*' ∈ subfolder then
        if fs.globHasMatch subfolder then [] else [.folder_doesnt_exist subfolder]
      else
        if fs.pathExists subfolder then [] else [.folder_doesnt_exist subfolder]
    reports ++ check_if_all_codeowners_folders_exist fs rest

/-! ### Claim-side definitions

These definitions follow the words of the specification's claims (and of
their amendments); the theorems below compare them with the code-side
definitions above. -/

/-- Claim-side (last-match-wins): the owners of the file-order-latest rule
whose pattern matches the path, or the empty list. -/
def lastMatchingOwners (entries : List OwnerShipEntry) (file : List Str) :
    List Str :=
  match (entries.filter
      (fun e => is_file_covered_by_pattern file e.pattern)).getLast? with
  | some e => e.owners
  | none => []

/-- A well-formed path segment: non-empty and free of the separator. -/
def wfSeg (s : Str) : Prop := s ≠ [] ∧ '/' ∉ s

instance (s : Str) : Decidable (wfSeg s) := by
  unfold wfSeg
  infer_instance

/-- Python dict lookup `children[name]`. -/
def lookupChild : ChildList → Str → Option OwnerShipTreeNode
  | .nil, _ => none
  | .cons k v cs, name => if k = name then some v else lookupChild cs name

/-- The names bound in a children dictionary, in order. -/
def ChildList.keys : ChildList → List Str
  | .nil => []
  | .cons k _ cs => k :: ChildList.keys cs

/-- The node of the tree at a given address (sequence of child names). -/
def findNode : OwnerShipTreeNode → List Str → Option OwnerShipTreeNode
  | t, [] => some t
  | t, s :: rest =>
    match lookupChild t.children s with
    | none => none
    | some c => findNode c rest

/-- Claim-side: the walk's redundancy condition at one node — a nearest
owning ancestor exists in the context and its owner set equals the
node's. -/
def specFlag (anc : Option OwnerShipTreeNode) (n : OwnerShipTreeNode) : Bool :=
  match anc with
  | some a => setEq n.owners a.owners
  | none => false

/-- Claim-side: the nearest-owning-ancestor context after descending past
`n`: a node with non-empty owners becomes the context for its subtree. -/
def specNextAnc (anc : Option OwnerShipTreeNode) (n : OwnerShipTreeNode) :
    Option OwnerShipTreeNode :=
  if n.owners ≠ [] then some n else anc

/-- Claim-side (amended C6): the node at address `q` below `t` (with
nearest-owning-ancestor context `anc`) is reported redundant exactly when
the address exists, no node strictly above it on the address is itself
redundant against its own nearest owning ancestor, and the node's owner
set equals its nearest owning ancestor's. -/
def specReported (anc : Option OwnerShipTreeNode) (t : OwnerShipTreeNode) :
    List Str → Bool
  | [] => specFlag anc t
  | s :: rest =>
    !(specFlag anc t) &&
      (match lookupChild t.children s with
       | none => false
       | some c => specReported (specNextAnc anc t) c rest)

/-- No two bindings of a children dictionary share a name. -/
def nodupKeys : ChildList → Bool
  | .nil => true
  | .cons k _ cs => !(decide (k ∈ cs.keys)) && nodupKeys cs

mutual
/-- Well-formed tree: children names are distinct at every node (an
invariant of trees built through Python dict insertion). -/
def wfTree : OwnerShipTreeNode → Bool
  | .mk cs _ _ => nodupKeys cs && wfChildren cs

/-- All trees of a children dictionary are well-formed. -/
def wfChildren : ChildList → Bool
  | .nil => true
  | .cons _ c cs => wfTree c && wfChildren cs
end

/-- Claim-side (amended C8): the existence requirement per rule — an
absolute pattern without `*` must exist as the single location
`repo_root / stripped`; an absolute pattern with `*` is a glob; a
relative pattern (wildcard or not) is checked as the glob `**/pattern`. -/
def specExistenceViolations (fs : FileSystem) (entry : OwnerShipEntry) :
    List Violation :=
  if entry.pattern.head? = some '/' then
    let stripped := entry.pattern.drop 1
    if '*' ∈ stripped then
      if fs.globHasMatch stripped then [] else [.folder_doesnt_exist stripped]
    else
      if fs.pathExists stripped then [] else [.folder_doesnt_exist stripped]
  else
    let g := intercalateSlash (['*', '*'] :: splitSegs entry.pattern)
    if fs.globHasMatch g then [] else [.folder_doesnt_exist g]

/-- A filesystem with no entry at `docs` but a glob match for `**/docs`
(for example a file at `a/docs`). -/
def fsDocsDeepOnly : FileSystem :=
  ⟨fun _ => false, fun s => decide (s = ('*' :: '*' :: "/docs".toList))⟩

/-! ### Theorems -/

theorem find?_eq_head?_filter {α : Type} (p : α → Bool) (l : List α) :
    l.find? p = (l.filter p).head? := by
  induction l with
  | nil => rfl
  | cons x xs ih =>
    cases h : p x with
    | true =>
      rw [List.find?_cons_of_pos _ h, List.filter_cons_of_pos h]
      rfl
    | false =>
      have h2 : ¬ p x = true := by simp [h]
      rw [List.find?_cons_of_neg _ h2, List.filter_cons_of_neg h2, ih]

theorem find?_reverse_eq_getLast?_filter {α : Type} (p : α → Bool) (l : List α) :
    l.reverse.find? p = (l.filter p).getLast? := by
  rw [find?_eq_head?_filter, List.filter_reverse, List.head?_reverse]

theorem get_owners_eq_find? (ownerships : List OwnerShipEntry) (file : List Str) :
    get_owners ownerships file =
      (match ownerships.find?
          (fun e => is_file_covered_by_pattern file e.pattern) with
       | some e => e.owners
       | none => []) := by
  induction ownerships with
  | nil => rfl
  | cons o rest ih =>
    show (if is_file_covered_by_pattern file o.pattern then o.owners
          else get_owners rest file) = _
    rw [List.find?_cons]
    by_cases h : is_file_covered_by_pattern file o.pattern
    · simp [h]
    · simp [h, ih]

theorem get_owners_reverse_eq_lastMatch (entries : List OwnerShipEntry)
    (file : List Str) :
    get_owners entries.reverse file = lastMatchingOwners entries file := by
  rw [get_owners_eq_find?, find?_reverse_eq_getLast?_filter]
  rfl

/-- C1: `get_owners` scans the parsed (reversed) rule sequence and returns
the owners of the first rule whose pattern matches, the empty sequence
when none matches; hence the rule declared latest in the file among all
matching rules determines ownership, and on the file
`[(/foo, A, line1), (/foo/bar, B, line2)]` we get `get_owners(foo/bar) = B`
and `get_owners(foo/baz) = A`. -/
theorem get_owners_last_match_wins :
    (∀ (lines : List Str) (file : List Str),
      get_owners (parse_ownership lines) file =
        lastMatchingOwners (get_ownership_entries lines) file) ∧
    get_owners (parse_ownership ["/foo A".toList, "/foo/bar B".toList])
      ["foo".toList, "bar".toList] = ["B".toList] ∧
    get_owners (parse_ownership ["/foo A".toList, "/foo/bar B".toList])
      ["foo".toList, "baz".toList] = ["A".toList] := by
  refine ⟨fun lines file => ?_, by decide, by decide⟩
  exact get_owners_reverse_eq_lastMatch (get_ownership_entries lines) file

theorem mem_parentsOf (p q : List Str) :
    q ∈ parentsOf p ↔ (q <+: p ∧ q ≠ p) := by
  induction p generalizing q with
  | nil =>
    constructor
    · intro h
      exact absurd h (List.not_mem_nil q)
    · rintro ⟨hpre, hne⟩
      exact absurd (List.prefix_nil.mp hpre) hne
  | cons x xs ih =>
    show q ∈ (parentsOf xs).map (fun r => x :: r) ++ [[]] ↔ _
    constructor
    · intro h
      rcases List.mem_append.mp h with hmap | hsing
      · rcases List.mem_map.mp hmap with ⟨r, hr, rfl⟩
        rcases (ih r).mp hr with ⟨hpre, hne⟩
        refine ⟨List.cons_prefix_cons.mpr ⟨rfl, hpre⟩, fun hc => hne ?_⟩
        injection hc
      · rw [List.mem_singleton.mp hsing]
        exact ⟨List.nil_prefix, fun hc => List.cons_ne_nil x xs hc.symm⟩
    · rintro ⟨hpre, hne⟩
      cases q with
      | nil => exact List.mem_append.mpr (Or.inr (List.mem_singleton.mpr rfl))
      | cons y q1 =>
        rcases List.cons_prefix_cons.mp hpre with ⟨rfl, hpre1⟩
        refine List.mem_append.mpr (Or.inl (List.mem_map.mpr
          ⟨q1, (ih q1).mpr ⟨hpre1, fun hc => hne ?_⟩, rfl⟩))
        rw [hc]

theorem prefix_proper_iff_append (q p : List Str) :
    (q <+: p ∧ q ≠ p) ↔ ∃ s, s ≠ [] ∧ p = q ++ s := by
  constructor
  · rintro ⟨⟨t, rfl⟩, hne⟩
    refine ⟨t, ?_, rfl⟩
    rintro rfl
    exact hne (by simp)
  · rintro ⟨s, hs, rfl⟩
    refine ⟨⟨s, rfl⟩, ?_⟩
    intro h
    have := congrArg List.length h
    simp at this
    exact hs this

/-- C2: for every pattern without `*` that starts with `/` and every path,
the matcher returns true iff the pattern with its leading `/` and
trailing `/` stripped, read as path segments, equals the path exactly or
is a path-segment-wise proper ancestor of it; a path that merely extends
the last segment as a string is not matched (`/a/b` does not match
`a/bc`). -/
theorem covered_absolute_pattern :
    (∀ (pat : Str) (path : List Str), '*' ∉ pat → pat.head? = some '/' →
      (is_file_covered_by_pattern path pat = true ↔
        (pathParts (rstripSlashes (pat.drop 1)) = path ∨
          ∃ s, s ≠ [] ∧ path = pathParts (rstripSlashes (pat.drop 1)) ++ s))) ∧
    is_file_covered_by_pattern ["a".toList, "bc".toList] "/a/b".toList = false := by
  constructor
  · intro pat path hstar hslash
    show (if '*' ∈ pat then _ else _) = true ↔ _
    rw [if_neg hstar, if_pos hslash, decide_eq_true_eq, mem_parentsOf,
      prefix_proper_iff_append]
  · decide

theorem covered_absolute_pattern_witness :
    ¬ ('*' ∈ ("/foo".toList : Str)) ∧
    (is_file_covered_by_pattern ["foo".toList, "bar".toList] "/foo".toList = true ↔
      (pathParts (rstripSlashes (("/foo".toList : Str).drop 1)) =
          ["foo".toList, "bar".toList] ∨
        ∃ s, s ≠ [] ∧ ["foo".toList, "bar".toList] =
          pathParts (rstripSlashes (("/foo".toList : Str).drop 1)) ++ s)) :=
  ⟨by decide, covered_absolute_pattern.1 _ _ (by decide) (by decide)⟩

theorem containsSubstring_iff_infix (haystack needle : Str) :
    containsSubstring haystack needle = true ↔ needle <:+: haystack := by
  induction haystack with
  | nil =>
    simp only [containsSubstring, Bool.or_false, List.isPrefixOf_iff_prefix]
    constructor
    · intro h
      exact (List.prefix_nil.mp h) ▸ List.infix_refl []
    · intro h
      rw [List.infix_nil.mp h]
  | cons c t ih =>
    simp only [containsSubstring, Bool.or_eq_true, List.isPrefixOf_iff_prefix, ih,
      List.infix_cons_iff]

/-- C4: for every pattern without `*` that does not start with `/` and
every path, the matcher returns true iff the pattern with trailing `/`
stripped occurs as a raw substring anywhere in the path's string form;
in particular the mid-segment occurrence `bar` in `foo/barbaz` counts. -/
theorem covered_unanchored_pattern :
    (∀ (pat : Str) (path : List Str), '*' ∉ pat → ¬ pat.head? = some '/' →
      (is_file_covered_by_pattern path pat = true ↔
        rstripSlashes pat <:+: pathStr path)) ∧
    is_file_covered_by_pattern ["foo".toList, "barbaz".toList] "bar".toList = true := by
  constructor
  · intro pat path hstar hslash
    show (if '*' ∈ pat then _ else _) = true ↔ _
    rw [if_neg hstar, if_neg hslash, containsSubstring_iff_infix]
  · decide

theorem covered_unanchored_pattern_witness :
    ¬ ('*' ∈ ("bar".toList : Str)) ∧
    (is_file_covered_by_pattern ["foo".toList, "barbaz".toList] "bar".toList = true ↔
      rstripSlashes "bar".toList <:+: pathStr ["foo".toList, "barbaz".toList]) :=
  ⟨by decide, covered_unanchored_pattern.1 _ _ (by decide) (by decide)⟩

theorem splitOnChar_ne_nil (c : Char) (s : Str) : splitOnChar c s ≠ [] := by
  cases s with
  | nil => simp [splitOnChar]
  | cons x xs =>
    show (match splitOnChar c xs with
      | [] => [[]]
      | h :: t => if x = c then [] :: h :: t else (x :: h) :: t) ≠ []
    cases splitOnChar c xs with
    | nil => simp
    | cons h t =>
      by_cases hx : x = c <;> simp [hx]

theorem splitOnChar_append_not_mem (c : Char) (l r : Str) (hl : c ∉ l) :
    splitOnChar c (l ++ c :: r) = l :: splitOnChar c r := by
  induction l with
  | nil =>
    show (match splitOnChar c r with
      | [] => [[]]
      | h :: t => if c = c then [] :: h :: t else (c :: h) :: t) = [] :: splitOnChar c r
    cases hs : splitOnChar c r with
    | nil => exact absurd hs (splitOnChar_ne_nil c r)
    | cons h t => simp
  | cons x l ih =>
    have hx : x ≠ c := fun h => hl (h ▸ List.mem_cons_self x l)
    have hl2 : c ∉ l := fun h => hl (List.mem_cons_of_mem x h)
    show (match splitOnChar c (l ++ c :: r) with
      | [] => [[]]
      | h :: t => if x = c then [] :: h :: t else (x :: h) :: t) = _
    rw [ih hl2]
    simp [hx]

theorem matchGroups_single_nil (s : Str) : matchGroups [[]] s = some [s] := by
  show tryLen [] (matchGroups []) s s.length = some [s]
  have htry : ∀ k, k = s.length → tryAt [] (matchGroups []) s k = some [s] := by
    intro k hk
    show (if reLitPrefix [] (s.drop k) then
      ((matchGroups [] (s.drop (k + ([] : Str).length))).map (fun caps => s.take k :: caps))
      else none) = some [s]
    rw [if_pos (show reLitPrefix [] (s.drop k) = true from rfl)]
    show some [s.take k] = some [s]
    rw [hk, List.take_length]
  cases hk : s.length with
  | zero =>
    show tryAt [] (matchGroups []) s 0 = some [s]
    exact htry 0 hk.symm
  | succ k =>
    show (match tryAt [] (matchGroups []) s (k + 1) with
      | some r => some r
      | none => tryLen [] (matchGroups []) s k) = some [s]
    rw [htry (k + 1) hk.symm]

theorem reMatchCaptures_single (lit s : Str) (hstar : '*' ∉ lit) :
    reMatchCaptures ('/' :: lit ++ ['/', '*']) s =
      (if reLitPrefix (lit ++ ['/']) s then some [s.drop (lit.length + 1)]
       else none) := by
  have hsplit : splitOnChar '*' ('/' :: lit ++ ['/', '*']) =
      ('/' :: lit ++ ['/']) :: splitOnChar '*' [] := by
    have : ('/' :: lit ++ ['/', '*'] : Str) = ('/' :: lit ++ ['/']) ++ '*' :: [] := by
      simp
    rw [this]
    apply splitOnChar_append_not_mem
    intro h
    rcases List.mem_cons.mp h with h1 | h2
    · exact absurd h1 (by decide)
    · rcases List.mem_append.mp h2 with h3 | h4
      · exact hstar h3
      · exact absurd h4 (by decide)
  show (match splitOnChar '*' ('/' :: lit ++ ['/', '*']) with
    | [] => none
    | c0 :: rest =>
      if ('/' :: lit ++ ['/', '*'] : Str).head? = some '/' then
        anchoredMatch (c0.drop 1) rest s
      else lazyFind (fun t => anchoredMatch c0 rest t) s) = _
  rw [hsplit]
  show anchoredMatch (('/' :: lit ++ ['/']).drop 1) [[]] s = _
  show (if reLitPrefix (lit ++ ['/']) s then
    matchGroups [[]] (s.drop (lit ++ ['/']).length) else none) = _
  by_cases hp : reLitPrefix (lit ++ ['/']) s
  · rw [if_pos hp, if_pos hp, matchGroups_single_nil]
    simp
  · rw [if_neg hp, if_neg hp]

theorem covered_trailing_slash_star (lit : Str) (path : List Str)
    (hstar : '*' ∉ lit) :
    is_file_covered_by_pattern path ('/' :: lit ++ ['/', '*']) = true ↔
      (reLitPrefix (lit ++ ['/']) (pathStr path) = true ∧
        (pathStr path).drop (lit.length + 1) = pathName path) := by
  have hmem : '*' ∈ ('/' :: lit ++ ['/', '*'] : Str) := by
    simp
  have hsuf : (['/', '*'] : Str).isSuffixOf ('/' :: lit ++ ['/', '*']) = true := by
    rw [List.isSuffixOf_iff_suffix]
    exact ⟨'/' :: lit, by simp⟩
  show (if '*' ∈ ('/' :: lit ++ ['/', '*'] : Str) then
      match_pattern_with_asterisks (pathStr path) (pathName path)
        ('/' :: lit ++ ['/', '*'])
    else _) = true ↔ _
  rw [if_pos hmem]
  show (match reMatchCaptures ('/' :: lit ++ ['/', '*']) (pathStr path) with
    | none => false
    | some caps =>
      if (['/', '*'] : Str).isSuffixOf ('/' :: lit ++ ['/', '*']) then
        decide (caps.getLast? = some (pathName path))
      else true) = true ↔ _
  rw [reMatchCaptures_single lit (pathStr path) hstar]
  by_cases hp : reLitPrefix (lit ++ ['/']) (pathStr path)
  · rw [if_pos hp]
    show (if (['/', '*'] : Str).isSuffixOf ('/' :: lit ++ ['/', '*']) then
      decide (([(pathStr path).drop (lit.length + 1)].getLast?) = some (pathName path))
      else true) = true ↔ _
    rw [if_pos hsuf]
    rw [decide_eq_true_eq]
    constructor
    · intro h
      refine ⟨hp, ?_⟩
      injection h
    · rintro ⟨_, h⟩
      rw [List.getLast?_singleton, h]
  · rw [if_neg hp]
    constructor
    · intro h
      exact absurd h (by simp)
    · rintro ⟨h, _⟩
      exact absurd h hp

theorem intercalateSlash_cons (x : Str) (a : List Str) :
    intercalateSlash (x :: a) =
      x ++ (if a = [] then [] else '/' :: intercalateSlash a) := by
  cases a with
  | nil => simp [intercalateSlash]
  | cons y b => simp [intercalateSlash]

theorem intercalateSlash_concat (a : List Str) (nm : Str) (ha : a ≠ []) :
    intercalateSlash (a ++ [nm]) = intercalateSlash a ++ '/' :: nm := by
  induction a with
  | nil => exact absurd rfl ha
  | cons x a1 ih =>
    cases a1 with
    | nil => simp [intercalateSlash]
    | cons y b =>
      show x ++ '/' :: intercalateSlash ((y :: b) ++ [nm]) =
        (x ++ '/' :: intercalateSlash (y :: b)) ++ '/' :: nm
      rw [ih (List.cons_ne_nil y b)]
      simp

theorem mem_intercalateSlash (l : List Str) (c : Char)
    (h : c ∈ intercalateSlash l) : c = '/' ∨ ∃ s ∈ l, c ∈ s := by
  induction l with
  | nil => exact absurd h (List.not_mem_nil c)
  | cons x a ih =>
    rw [intercalateSlash_cons] at h
    rcases List.mem_append.mp h with h1 | h2
    · exact Or.inr ⟨x, List.mem_cons_self x a, h1⟩
    · by_cases ha : a = []
      · rw [if_pos ha] at h2
        exact absurd h2 (List.not_mem_nil c)
      · rw [if_neg ha] at h2
        rcases List.mem_cons.mp h2 with h3 | h4
        · exact Or.inl h3
        · rcases ih h4 with h5 | ⟨s, hs, hc⟩
          · exact Or.inl h5
          · exact Or.inr ⟨s, List.mem_cons_of_mem x hs, hc⟩

theorem intercalateSlash_ne_nil (l : List Str) (hw : ∀ s ∈ l, wfSeg s)
    (hl : l ≠ []) : intercalateSlash l ≠ [] := by
  cases l with
  | nil => exact absurd rfl hl
  | cons x a =>
    rw [intercalateSlash_cons]
    intro h
    exact (hw x (List.mem_cons_self x a)).1 (List.append_eq_nil.mp h).1

theorem eq_of_append_sep : ∀ (x y ra rb : Str), '/' ∉ x → '/' ∉ y →
    x ++ ra = y ++ rb → (ra = [] ∨ ra.head? = some '/') →
    (rb = [] ∨ rb.head? = some '/') → x = y := by
  intro x
  induction x with
  | nil =>
    intro y ra rb _ hy h hra _
    cases y with
    | nil => rfl
    | cons d y1 =>
      exfalso
      have hd : ra = d :: (y1 ++ rb) := by simpa using h
      rcases hra with h1 | h1
      · rw [h1] at hd
        exact List.cons_ne_nil d (y1 ++ rb) hd.symm
      · rw [hd] at h1
        simp only [List.head?_cons, Option.some.injEq] at h1
        exact hy (h1 ▸ List.mem_cons_self d y1)
  | cons c x1 ih =>
    intro y ra rb hx hy h hra hrb
    cases y with
    | nil =>
      exfalso
      have hd : rb = c :: (x1 ++ ra) := by simpa using h.symm
      rcases hrb with h1 | h1
      · rw [h1] at hd
        exact List.cons_ne_nil c (x1 ++ ra) hd.symm
      · rw [hd] at h1
        simp only [List.head?_cons, Option.some.injEq] at h1
        exact hx (h1 ▸ List.mem_cons_self c x1)
    | cons d y1 =>
      have hcd : c = d := by injection h
      have ht : x1 ++ ra = y1 ++ rb := by injection h
      have hx1 : '/' ∉ x1 := fun hm => hx (List.mem_cons_of_mem c hm)
      have hy1 : '/' ∉ y1 := fun hm => hy (List.mem_cons_of_mem d hm)
      rw [hcd, ih y1 ra rb hx1 hy1 ht hra hrb]

theorem intercalateSlash_injective : ∀ (a b : List Str),
    (∀ s ∈ a, wfSeg s) → (∀ s ∈ b, wfSeg s) →
    intercalateSlash a = intercalateSlash b → a = b := by
  intro a
  induction a with
  | nil =>
    intro b _ hb h
    cases b with
    | nil => rfl
    | cons y b1 =>
      exfalso
      rw [intercalateSlash_cons] at h
      exact (hb y (List.mem_cons_self y b1)).1 (List.append_eq_nil.mp h.symm).1
  | cons x a1 ih =>
    intro b ha hb h
    cases b with
    | nil =>
      exfalso
      rw [intercalateSlash_cons] at h
      exact (ha x (List.mem_cons_self x a1)).1 (List.append_eq_nil.mp h).1
    | cons y b1 =>
      rw [intercalateSlash_cons, intercalateSlash_cons] at h
      have hx := ha x (List.mem_cons_self x a1)
      have hy := hb y (List.mem_cons_self y b1)
      have hxy : x = y := by
        refine eq_of_append_sep x y _ _ hx.2 hy.2 h ?_ ?_
        · cases a1 <;> simp
        · cases b1 <;> simp
      subst hxy
      have h2 := List.append_cancel_left h
      have ha1' : ∀ s ∈ a1, wfSeg s :=
        fun s hs => ha s (List.mem_cons_of_mem x hs)
      have hb1' : ∀ s ∈ b1, wfSeg s :=
        fun s hs => hb s (List.mem_cons_of_mem x hs)
      by_cases ha1 : a1 = []
      · by_cases hb1 : b1 = []
        · rw [ha1, hb1]
        · rw [if_pos ha1, if_neg hb1] at h2
          simp at h2
      · by_cases hb1 : b1 = []
        · rw [if_neg ha1, if_pos hb1] at h2
          simp at h2
        · rw [if_neg ha1, if_neg hb1] at h2
          have h3 : intercalateSlash a1 = intercalateSlash b1 := by injection h2
          rw [ih b1 ha1' hb1' h3]

theorem pathName_mem (p : List Str) (h : p ≠ []) : pathName p ∈ p := by
  rw [pathName, List.getLast?_eq_getLast p h]
  exact List.getLast_mem h

theorem reLitPrefix_eq_isPrefixOf : ∀ (l : Str), '.' ∉ l →
    ∀ s, reLitPrefix l s = l.isPrefixOf s
  | [], _, s => by simp [reLitPrefix]
  | _ :: _, _, [] => rfl
  | pc :: ps, hd, c :: cs => by
    have hpc : pc ≠ '.' := fun h => hd (h ▸ List.mem_cons_self pc ps)
    have hps : '.' ∉ ps := fun h => hd (List.mem_cons_of_mem pc h)
    show (reCharMatch pc c && reLitPrefix ps cs) = (pc == c && ps.isPrefixOf cs)
    rw [reLitPrefix_eq_isPrefixOf ps hps cs]
    congr 1
    show (if pc = '.' then c != '\n' else pc == c) = (pc == c)
    rw [if_neg hpc]

theorem covered_single_star_iff (litSegs path : List Str)
    (hne : litSegs ≠ [])
    (hlit : ∀ s ∈ litSegs, wfSeg s ∧ '*' ∉ s ∧ '.' ∉ s)
    (hpath : ∀ s ∈ path, wfSeg s) :
    is_file_covered_by_pattern path
        ('/' :: intercalateSlash litSegs ++ ['/', '*']) = true ↔
      ∃ nm, path = litSegs ++ [nm] := by
  have hwlit : ∀ s ∈ litSegs, wfSeg s := fun s hs => (hlit s hs).1
  have hstar : '*' ∉ intercalateSlash litSegs := by
    intro h
    rcases mem_intercalateSlash litSegs '*' h with h1 | ⟨s, hs, hmem⟩
    · exact absurd h1 (by decide)
    · exact (hlit s hs).2.1 hmem
  have hdot : '.' ∉ intercalateSlash litSegs ++ ['/'] := by
    intro h
    rcases List.mem_append.mp h with h1 | h2
    · rcases mem_intercalateSlash litSegs '.' h1 with h3 | ⟨s, hs, hmem⟩
      · exact absurd h3 (by decide)
      · exact (hlit s hs).2.2 hmem
    · exact absurd (List.mem_singleton.mp h2) (by decide)
  have hlitnn : intercalateSlash litSegs ≠ [] :=
    intercalateSlash_ne_nil litSegs hwlit hne
  rw [covered_trailing_slash_star _ path hstar,
    reLitPrefix_eq_isPrefixOf (intercalateSlash litSegs ++ ['/']) hdot
      (pathStr path),
    List.isPrefixOf_iff_prefix]
  constructor
  · rintro ⟨hp, hd⟩
    have hpne : path ≠ [] := by
      rintro rfl
      rcases hp with ⟨t, ht⟩
      cases hl : intercalateSlash litSegs with
      | nil => exact hlitnn hl
      | cons c cl =>
        rw [hl] at ht
        have hlen := congrArg List.length ht
        simp [pathStr] at hlen
    have hSeq : pathStr path = intercalateSlash path := by
      rw [pathStr, if_neg hpne]
    rcases hp with ⟨t, ht⟩
    have hlen1 : (intercalateSlash litSegs ++ ['/']).length =
        (intercalateSlash litSegs).length + 1 := by simp
    have hdrop : (pathStr path).drop ((intercalateSlash litSegs).length + 1) = t := by
      rw [← ht, ← hlen1, List.drop_left]
    have htn : t = pathName path := by rw [← hdrop, hd]
    have hS : intercalateSlash path =
        intercalateSlash litSegs ++ '/' :: pathName path := by
      rw [← hSeq, ← ht, htn]
      simp
    have hnm : wfSeg (pathName path) := hpath (pathName path) (pathName_mem path hpne)
    have hwfied : ∀ s ∈ litSegs ++ [pathName path], wfSeg s := by
      intro s hs
      rcases List.mem_append.mp hs with h1 | h2
      · exact hwlit s h1
      · rw [List.mem_singleton.mp h2]
        exact hnm
    refine ⟨pathName path, ?_⟩
    apply intercalateSlash_injective path (litSegs ++ [pathName path]) hpath hwfied
    rw [intercalateSlash_concat litSegs (pathName path) hne]
    exact hS
  · rintro ⟨nm, rfl⟩
    have hpne : (litSegs ++ [nm] : List (List Char)) ≠ [] := by simp
    have hSeq : pathStr (litSegs ++ [nm]) = intercalateSlash (litSegs ++ [nm]) := by
      rw [pathStr, if_neg hpne]
    have hnm : pathName (litSegs ++ [nm]) = nm := by
      rw [pathName, List.getLast?_concat]
      rfl
    have hS : pathStr (litSegs ++ [nm]) =
        (intercalateSlash litSegs ++ ['/']) ++ nm := by
      rw [hSeq, intercalateSlash_concat litSegs nm hne]
      simp
    refine ⟨⟨nm, hS.symm⟩, ?_⟩
    rw [hS, hnm]
    have hlen1 : (intercalateSlash litSegs ++ ['/']).length =
        (intercalateSlash litSegs).length + 1 := by simp
    rw [← hlen1, List.drop_left]

theorem updateChild_found (f : OwnerShipTreeNode → OwnerShipTreeNode × List Violation)
    (name : Str) : ∀ (cs : ChildList) (c : OwnerShipTreeNode),
    lookupChild cs name = some c →
    (updateChild f name cs).2 = (f c).2 ∧
    lookupChild (updateChild f name cs).1 name = some (f c).1
  | .nil, c, hc => absurd hc (by simp [lookupChild])
  | .cons k v cs, c, hc => by
    by_cases hk : k = name
    · have hv : v = c := by
        rw [lookupChild, if_pos hk] at hc
        injection hc
      subst hv
      have hupd : updateChild f name (.cons k v cs) =
          (.cons k (f v).1 cs, (f v).2) := by
        show (if k = name then _ else _ : ChildList × List Violation) = _
        rw [if_pos hk]
      rw [hupd]
      refine ⟨rfl, ?_⟩
      show (if k = name then some (f v).1 else lookupChild cs name) = some (f v).1
      rw [if_pos hk]
    · rw [lookupChild, if_neg hk] at hc
      have hupd : updateChild f name (.cons k v cs) =
          (.cons k v (updateChild f name cs).1, (updateChild f name cs).2) := by
        show (if k = name then _ else _ : ChildList × List Violation) = _
        rw [if_neg hk]
      rw [hupd]
      rcases updateChild_found f name cs c hc with ⟨h1, h2⟩
      refine ⟨h1, ?_⟩
      show (if k = name then some v
        else lookupChild (updateChild f name cs).1 name) = _
      rw [if_neg hk]
      exact h2

theorem populate_at_existing (e : OwnerShipEntry) :
    ∀ (parts : List Str) (t n : OwnerShipTreeNode),
    findNode t parts = some n →
    (populate e parts t).2 =
      (if n.owners ≠ [] then
        if setEq n.owners e.owners then
          [.duplicate_lines e.pattern n.line_number e.line_number]
        else [.multiple_folder_owners e.pattern n.line_number e.line_number]
       else []) ∧
    findNode (populate e parts t).1 parts =
      some (.mk n.children e.owners (some e.line_number)) := by
  intro parts
  induction parts with
  | nil =>
    intro t n hfind
    have ht : t = n := by
      rw [findNode] at hfind
      injection hfind
    subst ht
    exact ⟨rfl, rfl⟩
  | cons name rest ih =>
    intro t n hfind
    rw [findNode] at hfind
    cases hc : lookupChild t.children name with
    | none => rw [hc] at hfind; exact absurd hfind (by simp)
    | some c =>
      rw [hc] at hfind
      rcases updateChild_found (populate e rest) name t.children c hc with ⟨h1, h2⟩
      rcases ih c n hfind with ⟨ih1, ih2⟩
      constructor
      · show (updateChild (populate e rest) name t.children).2 = _
        rw [h1, ih1]
      · show findNode (.mk (updateChild (populate e rest) name t.children).1
          t.owners t.line_number) (name :: rest) = _
        rw [findNode]
        show (match lookupChild (updateChild (populate e rest) name t.children).1 name with
          | none => none
          | some c => findNode c rest) = _
        rw [h2]
        exact ih2

/-- C5: when a rule terminates at a tree node already carrying owners,
the populate step reports exactly a duplicate-lines violation when the
owner sets are equal and exactly a multiple-folder-owners violation when
they differ, and then overwrites the node's owners and source line with
the later rule's values. -/
theorem populate_duplicate_conflict_overwrite :
    (∀ (e : OwnerShipEntry) (parts : List Str) (t n : OwnerShipTreeNode),
      findNode t parts = some n → n.owners ≠ [] →
      ((setEq n.owners e.owners = true →
        (populate e parts t).2 =
          [.duplicate_lines e.pattern n.line_number e.line_number]) ∧
       (setEq n.owners e.owners = false →
        (populate e parts t).2 =
          [.multiple_folder_owners e.pattern n.line_number e.line_number]) ∧
       findNode (populate e parts t).1 parts =
         some (.mk n.children e.owners (some e.line_number)))) ∧
    check_if_codeowners_has_ineffective_rules
      [⟨"/x".toList, ["A".toList], 1⟩, ⟨"/x".toList, ["A".toList], 2⟩] =
      [.duplicate_lines "/x".toList (some 1) 2] ∧
    check_if_codeowners_has_ineffective_rules
      [⟨"/x".toList, ["A".toList], 1⟩, ⟨"/x".toList, ["B".toList], 2⟩] =
      [.multiple_folder_owners "/x".toList (some 1) 2] := by
  refine ⟨?_, by decide, by decide⟩
  intro e parts t n hfind hown
  rcases populate_at_existing e parts t n hfind with ⟨h1, h2⟩
  refine ⟨fun hset => ?_, fun hset => ?_, h2⟩
  · rw [h1, if_pos hown, if_pos hset]
  · rw [h1, if_pos hown, if_neg (by simp [hset])]

theorem populate_duplicate_conflict_overwrite_witness :
    (findNode
        (.mk (.cons "x".toList (.mk .nil ["A".toList] (some 1)) .nil) [] none)
        ["x".toList] = some (.mk .nil ["A".toList] (some 1))) ∧
    ((.mk .nil ["A".toList] (some 1) : OwnerShipTreeNode).owners ≠ []) ∧
    ((setEq (OwnerShipTreeNode.mk .nil ["A".toList] (some 1)).owners
        (⟨"/x".toList, ["B".toList], 2⟩ : OwnerShipEntry).owners = true →
      (populate ⟨"/x".toList, ["B".toList], 2⟩ ["x".toList]
          (.mk (.cons "x".toList (.mk .nil ["A".toList] (some 1)) .nil) [] none)).2 =
        [.duplicate_lines "/x".toList (some 1) 2]) ∧
     (setEq (OwnerShipTreeNode.mk .nil ["A".toList] (some 1)).owners
        (⟨"/x".toList, ["B".toList], 2⟩ : OwnerShipEntry).owners = false →
      (populate ⟨"/x".toList, ["B".toList], 2⟩ ["x".toList]
          (.mk (.cons "x".toList (.mk .nil ["A".toList] (some 1)) .nil) [] none)).2 =
        [.multiple_folder_owners "/x".toList (some 1) 2]) ∧
     findNode (populate ⟨"/x".toList, ["B".toList], 2⟩ ["x".toList]
          (.mk (.cons "x".toList (.mk .nil ["A".toList] (some 1)) .nil) [] none)).1
        ["x".toList] =
       some (.mk (OwnerShipTreeNode.mk .nil ["A".toList] (some 1)).children
         ["B".toList] (some 2))) :=
  ⟨rfl, by decide,
   populate_duplicate_conflict_overwrite.1 _ _ _ _ rfl (by decide)⟩

theorem mem_keys_of_lookup (s : Str) : ∀ (cs : ChildList) (c : OwnerShipTreeNode),
    lookupChild cs s = some c → s ∈ cs.keys
  | .nil, c, hc => absurd hc (by simp [lookupChild])
  | .cons k v cs, c, hc => by
    by_cases hk : k = s
    · rw [ChildList.keys, hk]
      exact List.mem_cons_self s cs.keys
    · rw [lookupChild, if_neg hk] at hc
      rw [ChildList.keys]
      exact List.mem_cons_of_mem k (mem_keys_of_lookup s cs c hc)

theorem band_true {a b : Bool} (h : (a && b) = true) :
    a = true ∧ b = true := by
  simp at h
  exact h

theorem mem_ineff_flagged (cs : ChildList) (ow : List Str) (ln : Option Nat)
    (anc : Option OwnerShipTreeNode) (cp p : List Str)
    (hflag : specFlag anc (OwnerShipTreeNode.mk cs ow ln) = true)
    (hred : find_ineffective_rules (.mk cs ow ln) anc cp =
      [.rule_is_ineffective cp ln
        ((anc.map OwnerShipTreeNode.line_number).join)]) :
    (∃ ln1 la1, Violation.rule_is_ineffective p ln1 la1 ∈
        find_ineffective_rules (.mk cs ow ln) anc cp) ↔
      ∃ q, p = cp ++ q ∧
        specReported anc (OwnerShipTreeNode.mk cs ow ln) q = true := by
  rw [hred]
  constructor
  · rintro ⟨ln1, la1, hmem⟩
    have heq := List.mem_singleton.mp hmem
    have hp : p = cp := by injection heq
    exact ⟨[], by simp [hp], hflag⟩
  · rintro ⟨q, hp, hrep⟩
    cases q with
    | nil =>
      refine ⟨ln, (anc.map OwnerShipTreeNode.line_number).join, ?_⟩
      rw [hp, List.append_nil]
      exact List.mem_singleton.mpr rfl
    | cons s rest =>
      exfalso
      simp only [specReported] at hrep
      rw [hflag] at hrep
      simp at hrep

theorem mem_ineff_unflagged (cs : ChildList) (ow : List Str) (ln : Option Nat)
    (anc : Option OwnerShipTreeNode) (cp p : List Str)
    (hf : specFlag anc (OwnerShipTreeNode.mk cs ow ln) = false)
    (hred : find_ineffective_rules (.mk cs ow ln) anc cp =
      findIneffChildren cs (specNextAnc anc (.mk cs ow ln)) cp)
    (hch : (∃ ln1 la1, Violation.rule_is_ineffective p ln1 la1 ∈
        findIneffChildren cs (specNextAnc anc (.mk cs ow ln)) cp) ↔
      ∃ s c q, lookupChild cs s = some c ∧ p = cp ++ s :: q ∧
        specReported (specNextAnc anc (.mk cs ow ln)) c q = true) :
    (∃ ln1 la1, Violation.rule_is_ineffective p ln1 la1 ∈
        find_ineffective_rules (.mk cs ow ln) anc cp) ↔
      ∃ q, p = cp ++ q ∧
        specReported anc (OwnerShipTreeNode.mk cs ow ln) q = true := by
  rw [hred, hch]
  constructor
  · rintro ⟨s, c, q, hlook, hp, hrep⟩
    refine ⟨s :: q, by rw [hp], ?_⟩
    simp only [specReported, OwnerShipTreeNode.children]
    rw [hf, hlook]
    simpa using hrep
  · rintro ⟨q, hp, hrep⟩
    cases q with
    | nil =>
      simp only [specReported] at hrep
      rw [hf] at hrep
      exact absurd hrep (by simp)
    | cons s rest =>
      simp only [specReported, OwnerShipTreeNode.children] at hrep
      rw [hf] at hrep
      simp only [Bool.not_false, Bool.true_and] at hrep
      cases hlook : lookupChild cs s with
      | none => rw [hlook] at hrep; simp at hrep
      | some c =>
        rw [hlook] at hrep
        exact ⟨s, c, rest, hlook, hp, hrep⟩

mutual
theorem mem_ineff_node (t : OwnerShipTreeNode) (anc : Option OwnerShipTreeNode)
    (cp p : List Str) (hw : wfTree t = true) :
    (∃ ln1 la1, Violation.rule_is_ineffective p ln1 la1 ∈
        find_ineffective_rules t anc cp) ↔
      ∃ q, p = cp ++ q ∧ specReported anc t q = true := by
  match t with
  | .mk cs ow ln =>
    have hwk : nodupKeys cs = true ∧ wfChildren cs = true :=
      band_true (show (nodupKeys cs && wfChildren cs) = true from hw)
    cases anc with
    | none =>
      refine mem_ineff_unflagged cs ow ln none cp p rfl ?_
        (mem_ineff_children cs (specNextAnc none (OwnerShipTreeNode.mk cs ow ln)) cp p
          hwk.1 hwk.2)
      simp only [find_ineffective_rules]
      rw [if_neg (by simp)]
      rfl
    | some a =>
      by_cases hset : setEq ow a.owners = true
      · refine mem_ineff_flagged cs ow ln (some a) cp p hset ?_
        simp only [find_ineffective_rules]
        rw [if_pos hset]
      · have hsf : setEq ow a.owners = false := by
          cases hx : setEq ow a.owners with
          | false => rfl
          | true => exact absurd hx hset
        refine mem_ineff_unflagged cs ow ln (some a) cp p hsf ?_
          (mem_ineff_children cs (specNextAnc (some a) (OwnerShipTreeNode.mk cs ow ln)) cp p
            hwk.1 hwk.2)
        simp only [find_ineffective_rules]
        rw [if_neg hset]
        rfl

theorem mem_ineff_children (cs : ChildList) (anc : Option OwnerShipTreeNode)
    (cp p : List Str) (hk : nodupKeys cs = true) (hw : wfChildren cs = true) :
    (∃ ln1 la1, Violation.rule_is_ineffective p ln1 la1 ∈
        findIneffChildren cs anc cp) ↔
      ∃ s c q, lookupChild cs s = some c ∧ p = cp ++ s :: q ∧
        specReported anc c q = true := by
  match cs with
  | .nil =>
    constructor
    · rintro ⟨ln1, la1, hmem⟩
      exact absurd hmem (by simp [findIneffChildren])
    · rintro ⟨s, c, q, hlook, _, _⟩
      exact absurd hlook (by simp [lookupChild])
  | .cons k v rest =>
    have hkk : ¬ k ∈ rest.keys ∧ nodupKeys rest = true := by
      have h2 : (!(decide (k ∈ rest.keys)) && nodupKeys rest) = true := hk
      rcases band_true h2 with ⟨h3, h4⟩
      simp at h3
      exact ⟨h3, h4⟩
    have hww : wfTree v = true ∧ wfChildren rest = true :=
      band_true (show (wfTree v && wfChildren rest) = true from hw)
    have hred : findIneffChildren (.cons k v rest) anc cp =
        find_ineffective_rules v anc (cp ++ [k]) ++
          findIneffChildren rest anc cp := rfl
    rw [hred]
    constructor
    · rintro ⟨ln1, la1, hmem⟩
      rcases List.mem_append.mp hmem with hml | hmr
      · rcases (mem_ineff_node v anc (cp ++ [k]) p hww.1).mp ⟨ln1, la1, hml⟩
          with ⟨q, hp, hrep⟩
        refine ⟨k, v, q, ?_, ?_, hrep⟩
        · show (if k = k then some v else lookupChild rest k) = some v
          rw [if_pos rfl]
        · rw [hp]
          simp
      · rcases (mem_ineff_children rest anc cp p hkk.2 hww.2).mp ⟨ln1, la1, hmr⟩
          with ⟨s, c, q, hlook, hp, hrep⟩
        have hks : k ≠ s := by
          intro hks
          exact hkk.1 (hks ▸ mem_keys_of_lookup s rest c hlook)
        refine ⟨s, c, q, ?_, hp, hrep⟩
        show (if k = s then some v else lookupChild rest s) = some c
        rw [if_neg hks]
        exact hlook
    · rintro ⟨s, c, q, hlook, hp, hrep⟩
      by_cases hks : k = s
      · have hcv : v = c := by
          rw [lookupChild, if_pos hks] at hlook
          injection hlook
        subst hcv
        rcases (mem_ineff_node v anc (cp ++ [k]) p hww.1).mpr
            ⟨q, by rw [hp, hks]; simp, hrep⟩ with ⟨ln1, la1, hml⟩
        exact ⟨ln1, la1, List.mem_append.mpr (Or.inl hml)⟩
      · rw [lookupChild, if_neg hks] at hlook
        rcases (mem_ineff_children rest anc cp p hkk.2 hww.2).mpr
            ⟨s, c, q, hlook, hp, hrep⟩ with ⟨ln1, la1, hmr⟩
        exact ⟨ln1, la1, List.mem_append.mpr (Or.inr hmr)⟩
end

/-- C6 (amended): the redundancy walk reports a rule-is-ineffective
violation exactly for the nodes it reaches whose owner set equals their
nearest owning ancestor's: the address must exist, no node strictly above
it on its address may itself be redundant (the walk never descends below
a flagged node), and the node's owner set must equal its nearest owning
ancestor's — so a reached node with a differing owner set is never
reported, and this holds regardless of declaration order. -/
theorem ineffective_walk_reports_iff (t : OwnerShipTreeNode) (p : List Str)
    (hw : wfTree t = true) :
    (∃ ln la, Violation.rule_is_ineffective p ln la ∈
        find_ineffective_rules t none []) ↔ specReported none t p = true := by
  rw [mem_ineff_node t none [] p hw]
  constructor
  · rintro ⟨q, hq, hrep⟩
    have : p = q := by simpa using hq
    rwa [this]
  · intro h
    exact ⟨p, by simp, h⟩

theorem ineffective_walk_reports_iff_witness :
    wfTree (buildTree [⟨"/a".toList, ["X".toList], 1⟩,
        ⟨"/a/b".toList, ["X".toList], 2⟩] emptyNode).1 = true ∧
    ((∃ ln la, Violation.rule_is_ineffective [['/'], "a".toList, "b".toList] ln la ∈
        find_ineffective_rules (buildTree [⟨"/a".toList, ["X".toList], 1⟩,
          ⟨"/a/b".toList, ["X".toList], 2⟩] emptyNode).1 none []) ↔
      specReported none (buildTree [⟨"/a".toList, ["X".toList], 1⟩,
          ⟨"/a/b".toList, ["X".toList], 2⟩] emptyNode).1
        [['/'], "a".toList, "b".toList] = true) :=
  ⟨by decide, ineffective_walk_reports_iff _ _ (by decide)⟩

/-- C6 counterexample: in the tree built from `/a X (line 1)`,
`/a/b X (line 2)`, `/a/b/c X (line 3)` the node at `/a/b/c` exists and
carries the same owner set as its nearest owning ancestor `/a/b`, yet the
auditor's full report cites only `/a/b`: nothing is reported for
`/a/b/c`, contradicting the claim that every such node is reported. -/
theorem ineffective_walk_misses_descendant :
    check_if_codeowners_has_ineffective_rules
      [⟨"/a".toList, ["X".toList], 1⟩, ⟨"/a/b".toList, ["X".toList], 2⟩,
       ⟨"/a/b/c".toList, ["X".toList], 3⟩] =
      [.rule_is_ineffective [['/'], "a".toList, "b".toList] (some 2) (some 1)] ∧
    (findNode (buildTree [⟨"/a".toList, ["X".toList], 1⟩,
        ⟨"/a/b".toList, ["X".toList], 2⟩,
        ⟨"/a/b/c".toList, ["X".toList], 3⟩] emptyNode).1
      [['/'], "a".toList, "b".toList, "c".toList]).map OwnerShipTreeNode.owners =
      some ["X".toList] ∧
    (findNode (buildTree [⟨"/a".toList, ["X".toList], 1⟩,
        ⟨"/a/b".toList, ["X".toList], 2⟩,
        ⟨"/a/b/c".toList, ["X".toList], 3⟩] emptyNode).1
      [['/'], "a".toList, "b".toList]).map OwnerShipTreeNode.owners =
      some ["X".toList] := by
  refine ⟨by decide, by decide, by decide⟩

/-- C7 (amended): a node whose owner set equals the context ancestor's is
reported and the walk returns at once — its subtree is not traversed; only
an unflagged node with non-empty owners becomes the new first ancestor for
its children's walk. -/
theorem flagged_node_stops_walk :
    (∀ (t : OwnerShipTreeNode) (anc : Option OwnerShipTreeNode) (cp : List Str),
      specFlag anc t = true →
      find_ineffective_rules t anc cp =
        [.rule_is_ineffective cp t.line_number
          ((anc.map OwnerShipTreeNode.line_number).join)]) ∧
    (∀ (t : OwnerShipTreeNode) (anc : Option OwnerShipTreeNode) (cp : List Str),
      specFlag anc t = false →
      find_ineffective_rules t anc cp =
        findIneffChildren t.children (specNextAnc anc t) cp) := by
  constructor
  · intro t anc cp hflag
    match t with
    | .mk cs ow ln =>
      cases anc with
      | none => exact absurd hflag (by simp [specFlag])
      | some a =>
        have hset : setEq ow a.owners = true := hflag
        simp only [find_ineffective_rules]
        rw [if_pos hset]
        rfl
  · intro t anc cp hflag
    match t with
    | .mk cs ow ln =>
      cases anc with
      | none =>
        simp only [find_ineffective_rules]
        rw [if_neg (by simp)]
        rfl
      | some a =>
        have hset : setEq ow a.owners = false := hflag
        simp only [find_ineffective_rules]
        rw [if_neg (by simp [hset])]
        rfl

theorem flagged_node_stops_walk_witness :
    specFlag (some (.mk .nil ["X".toList] (some 1)))
      (.mk (.cons "b".toList emptyNode .nil) ["X".toList] (some 2)) = true ∧
    find_ineffective_rules
      (.mk (.cons "b".toList emptyNode .nil) ["X".toList] (some 2))
      (some (.mk .nil ["X".toList] (some 1))) ["a".toList] =
      [.rule_is_ineffective ["a".toList]
        ((OwnerShipTreeNode.mk (.cons "b".toList emptyNode .nil)
          ["X".toList] (some 2)).line_number)
        (((some (OwnerShipTreeNode.mk .nil ["X".toList] (some 1))).map
          OwnerShipTreeNode.line_number).join)] ∧
    specFlag none (.mk (.cons "b".toList emptyNode .nil) ["X".toList] (some 2)) =
      false ∧
    find_ineffective_rules
      (.mk (.cons "b".toList emptyNode .nil) ["X".toList] (some 2)) none
      ["a".toList] =
      findIneffChildren
        (OwnerShipTreeNode.mk (.cons "b".toList emptyNode .nil)
          ["X".toList] (some 2)).children
        (specNextAnc none (.mk (.cons "b".toList emptyNode .nil)
          ["X".toList] (some 2))) ["a".toList] :=
  ⟨by decide,
   flagged_node_stops_walk.1 _ _ _ (by decide),
   by decide,
   flagged_node_stops_walk.2 _ _ _ (by decide)⟩

/-- C7 counterexample: with `/p Q (line 1)`, `/p/q Q (line 2)`,
`/p/q/r Q (line 3)` the node `/p/q` is flagged; its descendant `/p/q/r`
exists with the same owner set, but the full report contains only the
`/p/q` violation — the flagged node's subtree is never traversed, so the
descendant is not reported. -/
theorem flagged_subtree_not_traversed :
    check_if_codeowners_has_ineffective_rules
      [⟨"/p".toList, ["Q".toList], 1⟩, ⟨"/p/q".toList, ["Q".toList], 2⟩,
       ⟨"/p/q/r".toList, ["Q".toList], 3⟩] =
      [.rule_is_ineffective [['/'], "p".toList, "q".toList] (some 2) (some 1)] ∧
    (findNode (buildTree [⟨"/p".toList, ["Q".toList], 1⟩,
        ⟨"/p/q".toList, ["Q".toList], 2⟩,
        ⟨"/p/q/r".toList, ["Q".toList], 3⟩] emptyNode).1
      [['/'], "p".toList, "q".toList, "r".toList]).map OwnerShipTreeNode.owners =
      some ["Q".toList] := by
  refine ⟨by decide, by decide⟩

/-- C8 (amended): the existence checker requires the single location
`repo_root / stripped` to exist only for patterns that start with `/` and
contain no `*`; every other pattern — wildcard-bearing or relative — is
checked as a glob, with relative patterns first prefixed by `**/`;
failures are reported as folder-doesn't-exist violations, never raised. -/
theorem folders_exist_check_characterisation (fs : FileSystem) :
    ∀ (entries : List OwnerShipEntry),
      check_if_all_codeowners_folders_exist fs entries =
        (entries.map (specExistenceViolations fs)).flatten := by
  intro entries
  induction entries with
  | nil => rfl
  | cons entry rest ih =>
    show (let subfolder :=
        if entry.pattern.head? = some '/' then entry.pattern.drop 1
        else intercalateSlash (['*', '*'] :: splitSegs entry.pattern)
      let reports :=
        if '*' ∈ subfolder then
          if fs.globHasMatch subfolder then []
          else [Violation.folder_doesnt_exist subfolder]
        else
          if fs.pathExists subfolder then []
          else [Violation.folder_doesnt_exist subfolder]
      reports ++ check_if_all_codeowners_folders_exist fs rest) = _
    rw [List.map_cons, List.flatten_cons, ← ih]
    by_cases hs : entry.pattern.head? = some '/'
    · simp only [if_pos hs, specExistenceViolations]
    · have hstar : '*' ∈ intercalateSlash (['*', '*'] :: splitSegs entry.pattern) := by
        rw [intercalateSlash_cons]
        cases h : splitSegs entry.pattern <;> simp
      simp only [if_neg hs, specExistenceViolations]
      rw [if_pos hstar]

/-- C8 counterexample: the wildcard-free relative pattern `docs` is not
checked for existence at `repo_root/docs`: on a filesystem where nothing
exists at that path but the glob `**/docs` matches (say a file at
`a/docs`), the checker reports no violation, contradicting the claim that
every wildcard-free pattern requires its single resolved location to
exist. -/
theorem relative_pattern_not_existence_checked :
    ¬ ('*' ∈ ("docs".toList : Str)) ∧
    fsDocsDeepOnly.pathExists "docs".toList = false ∧
    check_if_all_codeowners_folders_exist fsDocsDeepOnly
      [⟨"docs".toList, ["@team".toList], 1⟩] = [] := by
  refine ⟨by decide, rfl, by decide⟩

/-- C9: constructing the ownership index fails with `NotInDirectoryError`
when the CODEOWNERS file is an absolute path whose resolved location is
not inside the resolved repository root, and with a `FileNotFoundError`
when the located file cannot be read; both are raised immediately — the
constructor returns an error and produces no index, rather than
accumulating the problem as a content violation. -/
theorem init_raises_structural_errors :
    (∀ (resolve : PyPath → PyPath) (readLines : PyPath → Option (List Str))
      (repo_dir codeowners_file : PyPath),
      codeowners_file.absolute = true →
      is_relative_to (resolve codeowners_file) (resolve repo_dir) = false →
      githubOwnerShipInit resolve readLines repo_dir codeowners_file =
        .error .notInDirectory) ∧
    (∀ (resolve : PyPath → PyPath) (readLines : PyPath → Option (List Str))
      (repo_dir codeowners_file p : PyPath),
      resolve_file_in_dir resolve repo_dir codeowners_file = .ok p →
      readLines p = none →
      githubOwnerShipInit resolve readLines repo_dir codeowners_file =
        .error .fileNotFound) := by
  constructor
  · intro resolve readLines repo file habs hrel
    have hres : resolve_file_in_dir resolve repo file = .error .notInDirectory := by
      rw [resolve_file_in_dir, if_pos habs, if_pos hrel]
    simp only [githubOwnerShipInit, hres]
  · intro resolve readLines repo file p hok hnone
    simp only [githubOwnerShipInit, hok, hnone]

theorem init_raises_structural_errors_witness :
    (⟨true, ["etc".toList]⟩ : PyPath).absolute = true ∧
    is_relative_to (id (⟨true, ["etc".toList]⟩ : PyPath))
      (id (⟨true, ["repo".toList]⟩ : PyPath)) = false ∧
    githubOwnerShipInit id (fun _ => none) ⟨true, ["repo".toList]⟩
      ⟨true, ["etc".toList]⟩ = .error .notInDirectory ∧
    resolve_file_in_dir id ⟨true, ["repo".toList]⟩
      ⟨false, ["CODEOWNERS".toList]⟩ =
      .ok ⟨true, ["repo".toList, "CODEOWNERS".toList]⟩ ∧
    githubOwnerShipInit id (fun _ => none) ⟨true, ["repo".toList]⟩
      ⟨false, ["CODEOWNERS".toList]⟩ = .error .fileNotFound :=
  ⟨rfl, by decide,
   init_raises_structural_errors.1 id (fun _ => none) _ _ rfl (by decide),
   rfl,
   init_raises_structural_errors.2 id (fun _ => none) _ _
     ⟨true, ["repo".toList, "CODEOWNERS".toList]⟩ rfl rfl⟩

/-- C10 (amended): when the parsed index is non-empty, every query
operation evaluates `file.relative_to(repo_root)` and raises `ValueError`
for a file that is not under the repository root, instead of returning an
empty owner sequence, `None`, or `False`; with an empty index the loop
body never runs, so the empty results are returned without any error. -/
theorem queries_raise_outside_root (repo_dir : PyPath)
    (ownerships : List OwnerShipEntry) (file : PyPath)
    (hne : ownerships ≠ []) (hrel : relativeTo file repo_dir = none) :
    get_owners_q repo_dir ownerships file = .error .valueError ∧
    get_first_owner_q repo_dir ownerships file = .error .valueError ∧
    ∀ c, is_owned_by_q repo_dir ownerships file c = .error .valueError := by
  have h1 : get_owners_q repo_dir ownerships file = .error .valueError := by
    cases ownerships with
    | nil => exact absurd rfl hne
    | cons o rest => simp only [get_owners_q, hrel]
  refine ⟨h1, ?_, fun c => ?_⟩
  · simp only [get_first_owner_q, h1]
    rfl
  · simp only [is_owned_by_q, h1]
    rfl

theorem queries_raise_outside_root_witness :
    ([⟨"/a".toList, ["A".toList], 1⟩] : List OwnerShipEntry) ≠ [] ∧
    relativeTo (⟨true, ["etc".toList, "x".toList]⟩ : PyPath)
      ⟨true, ["repo".toList]⟩ = none ∧
    (get_owners_q ⟨true, ["repo".toList]⟩ [⟨"/a".toList, ["A".toList], 1⟩]
        ⟨true, ["etc".toList, "x".toList]⟩ = .error .valueError ∧
     get_first_owner_q ⟨true, ["repo".toList]⟩ [⟨"/a".toList, ["A".toList], 1⟩]
        ⟨true, ["etc".toList, "x".toList]⟩ = .error .valueError ∧
     ∀ c, is_owned_by_q ⟨true, ["repo".toList]⟩ [⟨"/a".toList, ["A".toList], 1⟩]
        ⟨true, ["etc".toList, "x".toList]⟩ c = .error .valueError) :=
  ⟨by decide, by decide,
   queries_raise_outside_root _ _ _ (by decide) (by decide)⟩

/-- C10 counterexample: with an empty rule list, the per-rule loop of
`get_owners` never evaluates `relative_to`, so a file outside the
repository root produces no `ValueError`: the empty owner tuple, `None`
and `False` are returned instead, contradicting the claim that the
queries always raise for such paths. -/
theorem empty_index_returns_without_error :
    relativeTo (⟨true, ["etc".toList, "x".toList]⟩ : PyPath)
      ⟨true, ["repo".toList]⟩ = none ∧
    get_owners_q ⟨true, ["repo".toList]⟩ []
      ⟨true, ["etc".toList, "x".toList]⟩ = .ok [] ∧
    get_first_owner_q ⟨true, ["repo".toList]⟩ []
      ⟨true, ["etc".toList, "x".toList]⟩ = .ok none ∧
    is_owned_by_q ⟨true, ["repo".toList]⟩ []
      ⟨true, ["etc".toList, "x".toList]⟩ "A".toList = .ok false :=
  ⟨by decide, rfl, rfl, rfl⟩
